import Mathlib

/-!
# Verification of the supplier-reconciliation evidence engine

Shallow embedding of the deterministic core of
`src/services/conciliacao.service.js`: text normalization
(`normalizarTexto`), fuzzy vendor presence (`fornecedorExisteNaRazao`),
per-line match extraction with monetary capture
(`extrairLinhasFornecedor`), locale parsing (`parseValorMonetario`) and
the cross-source balance verdict (`montarIndicadoresFornecedor`).

Strings are modelled as lists of characters (`Texto`); JavaScript
numbers are modelled as rationals.  Regular-expression operations of the
source are modelled by equivalent recursive functions, noted at each
definition.
-/

/-- A JavaScript string, as a list of characters. -/
abbrev Texto := List Char

/-- Coerce a Lean string literal to the model's string type. -/
def str (s : String) : Texto := s.data

/-!
Rational arithmetic of the model.  The standard rational operations of
the library are irreducible, which would block evaluation of the model
on concrete inputs; each operation below is an executable construction
through Rat.divInt, proved extensionally equal to the standard
operation it stands for, so that every use in the model is exactly the
ordinary arithmetic of the source.
-/

/-- Executable addition on rationals; equals the standard one
(qAdd_eq). -/
def qAdd (a b : ℚ) : ℚ :=
  Rat.divInt (a.num * b.den + b.num * a.den) (a.den * b.den)

/-- Executable subtraction on rationals; equals the standard one
(qSub_eq). -/
def qSub (a b : ℚ) : ℚ :=
  Rat.divInt (a.num * b.den - b.num * a.den) (a.den * b.den)

/-- Executable multiplication on rationals; equals the standard one
(qMul_eq). -/
def qMul (a b : ℚ) : ℚ :=
  Rat.divInt (a.num * b.num) (a.den * b.den)

/-- Executable division on rationals; equals the standard one
(qDiv_eq). -/
def qDiv (a b : ℚ) : ℚ :=
  Rat.divInt (a.num * b.den) (a.den * b.num)

/-- Executable negation on rationals; equals the standard one
(qNeg_eq). -/
def qNeg (a : ℚ) : ℚ :=
  Rat.divInt (-a.num) a.den

/-- Executable absolute value on rationals; equals the standard one
(qAbs_eq). -/
def qAbs (a : ℚ) : ℚ :=
  if 0 ≤ a then a else qNeg a

/-- Executable round-half-up on rationals; equals the standard round
(qRound_eq). -/
def qRound (x : ℚ) : ℤ :=
  (qAdd x (mkRat 1 2)).floor

theorem q_den_nz (a : ℚ) : (a.den : ℚ) ≠ 0 :=
  Nat.cast_ne_zero.mpr a.den_nz

theorem q_num_mul (a : ℚ) : (a.num : ℚ) = a * a.den := by
  have h : (a.num : ℚ) / a.den * a.den = a * a.den := by
    rw [Rat.num_div_den]
  rw [div_mul_cancel₀ _ (q_den_nz a)] at h
  exact h

theorem qAdd_eq (a b : ℚ) : qAdd a b = a + b := by
  rw [qAdd, Rat.divInt_eq_div]
  push_cast
  rw [div_eq_iff (mul_ne_zero (q_den_nz a) (q_den_nz b)), q_num_mul a,
    q_num_mul b]
  ring

theorem qSub_eq (a b : ℚ) : qSub a b = a - b := by
  rw [qSub, Rat.divInt_eq_div]
  push_cast
  rw [div_eq_iff (mul_ne_zero (q_den_nz a) (q_den_nz b)), q_num_mul a,
    q_num_mul b]
  ring

theorem qMul_eq (a b : ℚ) : qMul a b = a * b := by
  rw [qMul, Rat.divInt_eq_div]
  push_cast
  rw [div_eq_iff (mul_ne_zero (q_den_nz a) (q_den_nz b)), q_num_mul a,
    q_num_mul b]
  ring

theorem qDiv_eq (a b : ℚ) : qDiv a b = a / b := by
  rcases eq_or_ne b 0 with rfl | hb0
  · simp [qDiv, Rat.divInt_eq_div]
  · have hbnum : (b.num : ℚ) ≠ 0 :=
      Int.cast_ne_zero.mpr (Rat.num_ne_zero.mpr hb0)
    rw [qDiv, Rat.divInt_eq_div]
    push_cast
    rw [q_num_mul a, q_num_mul b]
    rw [div_eq_div_iff (mul_ne_zero (q_den_nz a)
      (mul_ne_zero hb0 (q_den_nz b))) hb0]
    ring

theorem qNeg_eq (a : ℚ) : qNeg a = -a := by
  rw [qNeg, Rat.divInt_eq_div]
  push_cast
  rw [q_num_mul a, neg_div, mul_div_assoc,
    div_self (q_den_nz a), mul_one]

theorem qAbs_eq (a : ℚ) : qAbs a = |a| := by
  rw [qAbs]
  split
  · rw [abs_of_nonneg (by assumption)]
  · rw [qNeg_eq, abs_of_neg (by linarith [not_le.mp (by assumption)])]

theorem qRound_eq (x : ℚ) : qRound x = round x := by
  rw [qRound, qAdd_eq, round_eq]
  rw [show (mkRat 1 2 : ℚ) = 1/2 by norm_num [Rat.mkRat_eq_div]]
  rw [show (x + 1/2).floor = ⌊x + 1/2⌋ by
    rw [Rat.floor_def' (x + 1/2), Rat.floor_def]]

/-- JavaScript regex class `\d`, i.e. the ASCII digits 0-9. -/
def digitoJS (c : Char) : Bool :=
  decide (48 ≤ c.toNat ∧ c.toNat ≤ 57)

/-- JavaScript regex class `\w`, i.e. ASCII letters, digits and underscore. -/
def letraJS (c : Char) : Bool :=
  decide ((65 ≤ c.toNat ∧ c.toNat ≤ 90) ∨ (97 ≤ c.toNat ∧ c.toNat ≤ 122) ∨
    (48 ≤ c.toNat ∧ c.toNat ≤ 57) ∨ c.toNat = 95)

/-- JavaScript regex class `\s` (also the set removed by `String.trim`):
tab, LF, VT, FF, CR, space, NBSP, Ogham space, the U+2000-200A range,
line/paragraph separator, NNBSP, MMSP, ideographic space and BOM. -/
def espacoJS (c : Char) : Bool :=
  decide (c.toNat = 9 ∨ c.toNat = 10 ∨ c.toNat = 11 ∨ c.toNat = 12 ∨
    c.toNat = 13 ∨ c.toNat = 32 ∨ c.toNat = 160 ∨ c.toNat = 5760 ∨
    (8192 ≤ c.toNat ∧ c.toNat ≤ 8202) ∨ c.toNat = 8232 ∨ c.toNat = 8233 ∨
    c.toNat = 8239 ∨ c.toNat = 8287 ∨ c.toNat = 12288 ∨ c.toNat = 65279)

/-- The class `[\r\n]` of the line-break-collapsing regex. -/
def quebraJS (c : Char) : Bool :=
  decide (c.toNat = 13 ∨ c.toNat = 10)

/-- Unicode combining diacritical marks U+0300-U+036F, the range removed
after NFD decomposition. -/
def marcaCombinante (c : Char) : Bool :=
  decide (768 ≤ c.toNat ∧ c.toNat ≤ 879)

/-- Decomposition table for NFD on the accented Latin letters of the
source's locale: each maps to its base letter followed by a combining
mark.  ASCII characters decompose to themselves (handled in
`nfdChar`); characters outside the table are kept unchanged. -/
def tabelaNFD : List (Char × List Char) :=
  [('á', ['a', '́']), ('à', ['a', '̀']), ('â', ['a', '̂']),
   ('ã', ['a', '̃']), ('ä', ['a', '̈']),
   ('é', ['e', '́']), ('è', ['e', '̀']), ('ê', ['e', '̂']),
   ('ë', ['e', '̈']),
   ('í', ['i', '́']), ('ì', ['i', '̀']), ('î', ['i', '̂']),
   ('ï', ['i', '̈']),
   ('ó', ['o', '́']), ('ò', ['o', '̀']), ('ô', ['o', '̂']),
   ('õ', ['o', '̃']), ('ö', ['o', '̈']),
   ('ú', ['u', '́']), ('ù', ['u', '̀']), ('û', ['u', '̂']),
   ('ü', ['u', '̈']), ('ç', ['c', '̧']), ('ñ', ['n', '̃']),
   ('Á', ['A', '́']), ('À', ['A', '̀']), ('Â', ['A', '̂']),
   ('Ã', ['A', '̃']), ('Ä', ['A', '̈']),
   ('É', ['E', '́']), ('È', ['E', '̀']), ('Ê', ['E', '̂']),
   ('Ë', ['E', '̈']),
   ('Í', ['I', '́']), ('Ì', ['I', '̀']), ('Î', ['I', '̂']),
   ('Ï', ['I', '̈']),
   ('Ó', ['O', '́']), ('Ò', ['O', '̀']), ('Ô', ['O', '̂']),
   ('Õ', ['O', '̃']), ('Ö', ['O', '̈']),
   ('Ú', ['U', '́']), ('Ù', ['U', '̀']), ('Û', ['U', '̂']),
   ('Ü', ['U', '̈']), ('Ç', ['C', '̧']), ('Ñ', ['N', '̃'])]

/-- Association-list search used by the NFD table. -/
def buscarTabela (t : List (Char × List Char)) (c : Char) : Option (List Char) :=
  match t with
  | [] => none
  | (k, v) :: resto => if k = c then some v else buscarTabela resto c

/-- NFD decomposition of one character: identity on ASCII, the table on
accented Latin letters, identity elsewhere. -/
def nfdChar (c : Char) : List Char :=
  if c.toNat < 128 then [c]
  else
    match buscarTabela tabelaNFD c with
    | some d => d
    | none => [c]

/-- NFD decomposition of a string, character by character. -/
def nfdLista : Texto → Texto
  | [] => []
  | c :: resto => nfdChar c ++ nfdLista resto

/-- Replace every maximal run of characters satisfying p with a single
space; models the global regex replacements with replacement string " ".
The boolean argument records whether the previous character was inside a
run. -/
def colapsaAux (p : Char → Bool) : Texto → Bool → Texto
  | [], _ => []
  | c :: resto, dentro =>
    if p c then
      if dentro then colapsaAux p resto true
      else ' ' :: colapsaAux p resto true
    else c :: colapsaAux p resto false

/-- Replace every maximal run of p-characters with one space. -/
def colapsa (p : Char → Bool) (l : Texto) : Texto :=
  colapsaAux p l false

/-- The charwise replacement of the regex `[^\w\s]` by a space. -/
def trocaPontuacao (l : Texto) : Texto :=
  l.map fun c => if letraJS c || espacoJS c then c else ' '

/-- Drop a trailing run of p-characters. -/
def tiraFim (p : Char → Bool) : Texto → Texto
  | [] => []
  | c :: resto =>
    let r := tiraFim p resto
    if r.isEmpty then (if p c then [] else [c]) else c :: r

/-- JavaScript String.trim: drop leading and trailing whitespace. -/
def aparar (l : Texto) : Texto :=
  tiraFim espacoJS (l.dropWhile espacoJS)

/-- ASCII lowercasing of one character; at its point of use in the
pipeline every character is ASCII, where this agrees with JavaScript
toLowerCase. -/
def minusculaChar (c : Char) : Char :=
  if 65 ≤ c.toNat ∧ c.toNat ≤ 90 then
    Char.ofNat (c.toNat + 32)
  else c

/-- JavaScript toLowerCase, charwise. -/
def minusculas (l : Texto) : Texto :=
  l.map minusculaChar

/-- The normalization pipeline of the source (function normalizarTexto):
NFD-decompose, strip combining marks, collapse line-break runs to one
space, collapse whitespace runs to one space, replace remaining
punctuation by spaces, trim and lowercase.  A falsy (empty) input gives
the empty string. -/
def normalizarTexto (s : Texto) : Texto :=
  if s.isEmpty then []
  else
    minusculas (aparar (trocaPontuacao
      (colapsa espacoJS (colapsa quebraJS
        ((nfdLista s).filter fun c => !marcaCombinante c)))))

/-- Does the needle occur at the start of the haystack? -/
def comecaCom : Texto → Texto → Bool
  | [], _ => true
  | _ :: _, [] => false
  | a :: as, b :: bs => a == b && comecaCom as bs

/-- JavaScript String.includes: does the needle occur anywhere in the
haystack?  The empty needle occurs in every string. -/
def contemSub (palheiro agulha : Texto) : Bool :=
  match palheiro with
  | [] => agulha.isEmpty
  | _ :: resto => comecaCom agulha palheiro || contemSub resto agulha

/-- Split on the regex newline separator of the source, matching either
CRLF or a bare LF; a lone CR does not split. -/
def quebrarLinhas : Texto → List Texto
  | [] => [[]]
  | '\r' :: '\n' :: resto =>
    [] :: quebrarLinhas resto
  | '\n' :: resto =>
    [] :: quebrarLinhas resto
  | c :: resto =>
    match quebrarLinhas resto with
    | [] => [[c]]
    | h :: t => (c :: h) :: t

/-- Split on a single separator character, keeping empty fields; models
JavaScript String.split with a one-character string separator. -/
def quebrarEm (sep : Char) : Texto → List Texto
  | [] => [[]]
  | c :: resto =>
    if c = sep then [] :: quebrarEm sep resto
    else
      match quebrarEm sep resto with
      | [] => [[c]]
      | h :: t => (c :: h) :: t

/-- The token list of a vendor name: the normalized name split on
spaces, each token trimmed, keeping only tokens longer than two
characters.  Computed identically in both matching functions of the
source. -/
def tokensDe (nome : Texto) : List Texto :=
  ((quebrarEm ' ' (normalizarTexto nome)).map aparar).filter
    fun t => 2 < t.length

/-- How many of the tokens occur as substrings of the (normalized)
line. -/
def contagemTokens (tokens : List Texto) (linha : Texto) : Nat :=
  (tokens.filter fun t => contemSub linha t).length

/-- The token-overlap score of a line: tokens found divided by total
tokens (0 when there are no tokens, as in the source's guarded
division). -/
def scoreTokens (tokens : List Texto) (linha : Texto) : ℚ :=
  qDiv (contagemTokens tokens linha : ℚ) (tokens.length : ℚ)

/-- Vendor presence (function fornecedorExisteNaRazao): false on falsy
inputs; true if the normalized vendor is a substring of the normalized
document; otherwise true iff some normalized non-empty line reaches a
token-overlap score of at least 0.70. -/
def fornecedorExisteNaRazao (nomeFornecedor textoRazaoBruto : Texto) : Bool :=
  if nomeFornecedor.isEmpty || textoRazaoBruto.isEmpty then false
  else
    let alvo := normalizarTexto nomeFornecedor
    if alvo.isEmpty then false
    else
      let textoNormalizado := normalizarTexto textoRazaoBruto
      if contemSub textoNormalizado alvo then true
      else
        let tokensAlvo := tokensDe nomeFornecedor
        if tokensAlvo.isEmpty then false
        else
          let linhas := ((quebrarLinhas textoRazaoBruto).map
            normalizarTexto).filter fun l => !l.isEmpty
          linhas.any fun linha => mkRat 7 10 ≤ scoreTokens tokensAlvo linha


/-- Greedily consume leading groups of the form period-plus-three-digits
(the starred group of the monetary regex), returning the consumed prefix
and the remainder. -/
def pegarGrupos : Texto → Texto × Texto
  | p :: a :: b :: c :: resto =>
    if p = '.' && digitoJS a && digitoJS b && digitoJS c then
      (p :: a :: b :: c :: (pegarGrupos resto).1, (pegarGrupos resto).2)
    else ([], p :: a :: b :: c :: resto)
  | outro => ([], outro)

theorem pegarGrupos_resto_le : ∀ s : Texto, (pegarGrupos s).2.length ≤ s.length
  | [] => by simp [pegarGrupos]
  | [_] => by simp [pegarGrupos]
  | [_, _] => by simp [pegarGrupos]
  | [_, _, _] => by simp [pegarGrupos]
  | p :: a :: b :: c :: resto => by
    have ih := pegarGrupos_resto_le resto
    simp only [pegarGrupos]
    split
    · simp only [List.length_cons]
      omega
    · simp

/-- Try to match the monetary regex (one to three digits, then groups of
a period and three digits, then a comma and two digits) at the start of
the string, returning the matched text and the remainder.  As the
pattern has no anchors, a digit run longer than three before the comma
makes the match at this position fail (the scan then retries one
character later, which is exactly the behaviour of the regex engine on
this pattern, whose failed backtracking attempts can never succeed). -/
def casarValorEm (s : Texto) : Option (Texto × Texto) :=
  if (s.takeWhile digitoJS).isEmpty || 3 < (s.takeWhile digitoJS).length then
    none
  else
    match (pegarGrupos (s.dropWhile digitoJS)).2 with
    | ',' :: d1 :: d2 :: resto3 =>
      if digitoJS d1 && digitoJS d2 then
        some ((s.takeWhile digitoJS) ++ (pegarGrupos (s.dropWhile digitoJS)).1
          ++ [',', d1, d2], resto3)
      else none
    | _ => none

theorem casarValorEm_encurta {s m r : Texto}
    (h : casarValorEm s = some (m, r)) : r.length < s.length := by
  have hlen := congrArg List.length
    (List.takeWhile_append_dropWhile digitoJS s)
  rw [List.length_append] at hlen
  have hg := pegarGrupos_resto_le (s.dropWhile digitoJS)
  unfold casarValorEm at h
  split at h
  · exact absurd h (by simp)
  · rename_i hcond
    have h1 : 0 < (s.takeWhile digitoJS).length := by
      cases hts : s.takeWhile digitoJS with
      | nil => rw [hts] at hcond; simp at hcond
      | cons a l => simp [hts]
    split at h
    · rename_i d1 d2 resto3 heq
      split at h
      · have hr : r = resto3 := by
          injection h with h2
          injection h2 with h2a h2b
          exact h2b.symm
        subst hr
        rw [heq] at hg
        simp only [List.length_cons] at hg
        omega
      · exact absurd h (by simp)
    · exact absurd h (by simp)

/-- One step of the match loop, on fuel: try the pattern here; on a
match emit it and continue after it, otherwise advance one character.
Structural recursion on the fuel keeps the function computable by the
kernel. -/
def varreAux : Nat → Texto → List Texto
  | 0, _ => []
  | fuel + 1, l =>
    match casarValorEm l with
    | some (m, r) => m :: varreAux fuel r
    | none =>
      match l with
      | [] => []
      | _ :: resto => varreAux fuel resto

/-- All matches of the monetary regex in a line, left to right and
non-overlapping: models the exec loop over the global regex
`(\d{1,3}(?:\.\d{3})*,\d{2})`.  A fuel of the line's length is
exact: every loop step strictly shortens the remainder
(casarValorEm_encurta), and on the empty remainder the loop stops with
or without fuel. -/
def varreValores (l : Texto) : List Texto :=
  varreAux l.length l

/-- One accepted line of a document (the record pushed by
extrairLinhasFornecedor): original line trimmed, normalized line,
token-overlap score, all monetary values found and the last one. -/
structure LineMatch where
  linhaOriginal : Texto
  linhaNormalizada : Texto
  scoreMatch : ℚ
  numerosMonetarios : List Texto
  ultimoNumero : Option Texto
deriving DecidableEq, Repr

/-- Build the record for one raw line, or nothing when its normalized
form is empty or its score is below the extraction threshold 0.60. -/
def linhaParaMatch (tokensAlvo : List Texto) (linhaOriginal : Texto) :
    Option LineMatch :=
  let linhaNorm := normalizarTexto linhaOriginal
  if linhaNorm.isEmpty then none
  else
    let score := scoreTokens tokensAlvo linhaNorm
    if mkRat 3 5 ≤ score then
      let nums := varreValores linhaOriginal
      some ⟨aparar linhaOriginal, linhaNorm, score, nums, nums.getLast?⟩
    else none

/-- Line extraction (function extrairLinhasFornecedor): empty on falsy
inputs, on an unnormalizable vendor name or on an empty token set;
otherwise one LineMatch per line whose token-overlap score reaches
0.60, in document order. -/
def extrairLinhasFornecedor (textoBruto nomeFornecedor : Texto) :
    List LineMatch :=
  if textoBruto.isEmpty || nomeFornecedor.isEmpty then []
  else if (normalizarTexto nomeFornecedor).isEmpty then []
  else
    let tokensAlvo := tokensDe nomeFornecedor
    if tokensAlvo.isEmpty then []
    else (quebrarLinhas textoBruto).filterMap (linhaParaMatch tokensAlvo)

/-- Remove every period (the first replacement of parseValorMonetario). -/
def removePontos (l : Texto) : Texto :=
  l.filter fun c => !(c == '.')

/-- Keep only digits, commas and minus signs (the second replacement of
parseValorMonetario). -/
def filtraNumerico (l : Texto) : Texto :=
  l.filter fun c => digitoJS c || c == ',' || c == '-'

/-- Replace only the first comma by a period: JavaScript
String.replace with a plain-string pattern replaces one occurrence. -/
def trocaPrimeiraVirgula : Texto → Texto
  | [] => []
  | c :: resto => if c = ',' then '.' :: resto
    else c :: trocaPrimeiraVirgula resto

/-- The integer value of a digit string, most significant first. -/
def valorDigitos (l : Texto) : ℕ :=
  l.foldl (fun acc c => 10 * acc + (c.toNat - 48)) 0

/-- JavaScript Number.parseFloat restricted to the alphabet that can
reach it here (digits, periods, commas, minus signs): an optional sign,
then digits with an optional fractional part; at least one digit must
appear before parsing stops at the first unusable character; none when
no number can be read at all.  Values are exact rationals; the float
rounding of the runtime is not modelled, nor is overflow of
300-digit-plus inputs to infinity. -/
def parseFloatSemSinal (s : Texto) : Option ℚ :=
  let ds := s.takeWhile digitoJS
  let resto := s.dropWhile digitoJS
  match resto with
  | '.' :: resto2 =>
    let fs := resto2.takeWhile digitoJS
    if ds.isEmpty && fs.isEmpty then none
    else some (qAdd (valorDigitos ds : ℚ)
      (mkRat (valorDigitos fs) (10 ^ fs.length)))
  | _ =>
    if ds.isEmpty then none else some (valorDigitos ds : ℚ)

/-- JavaScript Number.parseFloat with the optional leading sign. -/
def parseFloatJS (s : Texto) : Option ℚ :=
  match s with
  | '-' :: resto => (parseFloatSemSinal resto).map qNeg
  | '+' :: resto => parseFloatSemSinal resto
  | resto => parseFloatSemSinal resto

/-- Monetary parsing (function parseValorMonetario): none on a falsy
input; otherwise strip periods, keep only digits, commas and minus
signs, turn the first comma into a period and parseFloat the result;
none when that is not a (finite) number. -/
def parseValorMonetario (valorStr : Texto) : Option ℚ :=
  if valorStr.isEmpty then none
  else parseFloatJS (trocaPrimeiraVirgula (filtraNumerico
    (removePontos valorStr)))

/-- One parsed balance (an element of saldosEncontrados). -/
structure SaldoEncontrado where
  texto : Texto
  numero : ℚ
  linhaOriginal : Texto
deriving DecidableEq, Repr

/-- The per-source indicator: the vendor's lines and the balances
parsed from their last monetary values. -/
structure IndicadorRelatorio where
  linhasFornecedor : List LineMatch
  saldosEncontrados : List SaldoEncontrado
deriving DecidableEq, Repr

/-- The status of the automatic balance assessment. -/
inductive StatusSaldo where
  | dados_insuficientes
  | saldos_iguais
  | saldos_diferentes
deriving DecidableEq, Repr

/-- The automatic balance assessment returned next to the per-source
indicators. -/
structure AvaliacaoSaldo where
  status : StatusSaldo
  descricao : Texto
  valorReferenciaAproximado : Option ℚ
deriving DecidableEq, Repr

/-- The full result of montarIndicadoresFornecedor. -/
structure ResultadoIndicadores where
  indicadoresFornecedor : List (Texto × IndicadorRelatorio)
  avaliacaoAutomaticaSaldo : AvaliacaoSaldo
deriving DecidableEq, Repr

/-- The three canonical source keys iterated by
montarIndicadoresFornecedor. -/
def chavesRelatorios : List Texto :=
  [str "balancete", str "contas_pagar", str "razao"]

/-- Look a source key up in the input mapping; a missing key (and a
falsy empty value) yields the empty text, as in textosPorRelatorio
com chave ausente. -/
def buscarTexto (textos : List (Texto × Texto)) (chave : Texto) : Texto :=
  match textos with
  | [] => []
  | (k, v) :: resto => if k = chave then v else buscarTexto resto chave

/-- The parsed balances of a list of line matches: for every line whose
last monetary value is truthy and parses, record the raw text, the
number and the originating line. -/
def saldosDeLinhas (linhas : List LineMatch) : List SaldoEncontrado :=
  linhas.filterMap fun linha =>
    match linha.ultimoNumero with
    | none => none
    | some m =>
      if m.isEmpty then none
      else
        match parseValorMonetario m with
        | none => none
        | some v => some ⟨m, v, linha.linhaOriginal⟩

/-- The per-source loop of montarIndicadoresFornecedor: one indicator
per canonical key, in the fixed key order. -/
def montarPorChave (fornecedor : Texto) (textos : List (Texto × Texto)) :
    List (Texto × IndicadorRelatorio) :=
  chavesRelatorios.map fun chave =>
    let linhas := extrairLinhasFornecedor (buscarTexto textos chave) fornecedor
    (chave, ⟨linhas, saldosDeLinhas linhas⟩)

/-- The default assessment when balances cannot be compared safely. -/
def avaliacaoInsuficiente : AvaliacaoSaldo :=
  ⟨.dados_insuficientes,
   str "Não foi possível comparar saldos de forma automática com segurança.",
   none⟩

/-- Round to two decimal places, as Number(x.toFixed(2)) on the
non-negative values produced here. -/
def arredonda2 (x : ℚ) : ℚ :=
  Rat.divInt (qRound (qMul x 100)) 100

/-- The automatic assessment: with balances from fewer than two sources
it is insufficient-data; otherwise pool all balances of all sources
that have one, and compare the extremes against the 0.10 tolerance.
The empty-pool branch mirrors the Number.isFinite guard of the source,
under which an infinite spread minimum keeps the default assessment. -/
def avaliarSaldos (porChave : List (Texto × IndicadorRelatorio)) :
    AvaliacaoSaldo :=
  let comSaldo := porChave.filter fun p => !p.2.saldosEncontrados.isEmpty
  if 2 ≤ comSaldo.length then
    match (comSaldo.map fun p =>
        p.2.saldosEncontrados.map fun s => s.numero).flatten with
    | [] => avaliacaoInsuficiente
    | v :: vs =>
      let mn := vs.foldl min v
      let mx := vs.foldl max v
      if qAbs (qSub mx mn) ≤ mkRat 1 10 then
        ⟨.saldos_iguais,
         str "Os saldos identificados automaticamente nos relatórios são praticamente iguais para o fornecedor.",
         some (arredonda2 (qDiv (qAdd mn mx) 2))⟩
      else
        ⟨.saldos_diferentes,
         str "Foram encontrados saldos numéricos diferentes entre os relatórios para este fornecedor.",
         none⟩
  else avaliacaoInsuficiente

/-- Indicator construction (function montarIndicadoresFornecedor): the
per-source indicators over the three canonical keys together with the
automatic balance assessment. -/
def montarIndicadoresFornecedor (fornecedor : Texto)
    (textos : List (Texto × Texto)) : ResultadoIndicadores :=
  ⟨montarPorChave fornecedor textos,
   avaliarSaldos (montarPorChave fornecedor textos)⟩

theorem isEmpty_false_of_ne {α : Type} {l : List α} (h : l ≠ []) :
    l.isEmpty = false := by
  cases l with
  | nil => exact absurd rfl h
  | cons a r => rfl

theorem tokensDe_de_norm_vazia (nome : Texto)
    (h : normalizarTexto nome = []) : tokensDe nome = [] := by
  unfold tokensDe
  rw [h]
  rfl

theorem mem_tokensDe_comprimento {nome : Texto} {t : Texto}
    (h : t ∈ tokensDe nome) : 2 < t.length := by
  unfold tokensDe at h
  exact of_decide_eq_true (List.mem_filter.mp h).2

theorem contagem_pos_linha_nao_vazia {tokens : List Texto} {l : Texto}
    (hlen : ∀ t ∈ tokens, 2 < t.length)
    (h : 0 < contagemTokens tokens l) : l ≠ [] := by
  intro hnil
  subst hnil
  unfold contagemTokens at h
  have hfil : (tokens.filter fun t => contemSub [] t) = [] := by
    rw [List.filter_eq_nil_iff]
    intro t ht
    have h2 := hlen t ht
    cases t with
    | nil => simp at h2
    | cons a r => simp [contemSub]
  rw [hfil] at h
  simp at h

theorem extrair_eq_filterMap {texto nome : Texto} (hte : texto ≠ [])
    (hnome : nome ≠ []) (htoknil : tokensDe nome ≠ []) :
    extrairLinhasFornecedor texto nome =
      (quebrarLinhas texto).filterMap (linhaParaMatch (tokensDe nome)) := by
  have hnorm : normalizarTexto nome ≠ [] := by
    intro h
    exact htoknil (tokensDe_de_norm_vazia nome h)
  unfold extrairLinhasFornecedor
  rw [isEmpty_false_of_ne hte, isEmpty_false_of_ne hnome,
    isEmpty_false_of_ne hnorm]
  dsimp only []
  rw [isEmpty_false_of_ne htoknil]
  simp

/-!
Claims.  Each claim of the specification is settled by one theorem
below; auxiliary lemmas carry no claim by themselves.
-/

/-- C3: parseAmount example values: the Brazilian-locale strings
42.151,99 and 1.234.567,00 parse to 42151.99 and 1234567, while the
empty string and a pure-letter string yield null; the function is a
total function (it never raises by construction). -/
theorem parseValorMonetario_exemplos :
    parseValorMonetario (str "42.151,99") = some ((4215199 : ℚ)/100) ∧
    parseValorMonetario (str "1.234.567,00") = some ((1234567 : ℚ)) ∧
    parseValorMonetario (str "") = none ∧
    parseValorMonetario (str "abc") = none := by
  refine ⟨?_, by decide, by decide, by decide⟩
  rw [show ((4215199 : ℚ)/100) = mkRat 4215199 100 by
    norm_num [Rat.mkRat_eq_div]]
  decide

/-- C9: parseAmount replaces only the first comma: the two-comma string
1,23,45 does not yield null but the number 1.23, read up to the second
comma. -/
theorem parseValorMonetario_primeira_virgula :
    parseValorMonetario (str "1,23,45") = some ((123 : ℚ)/100) := by
  rw [show ((123 : ℚ)/100) = mkRat 123 100 by norm_num [Rat.mkRat_eq_div]]
  decide

/-- C10: the unanchored monetary pattern captures a proper suffix of a
digit run longer than three: on the line acme 1234,56 the only capture
is 234,56, it becomes the line's last value, and the balance parsed
from it is the truncation 234.56. -/
theorem varredura_sem_ancoras :
    extrairLinhasFornecedor (str "acme 1234,56") (str "acme") =
      [⟨str "acme 1234,56", str "acme 1234 56", 1,
        [str "234,56"], some (str "234,56")⟩] ∧
    saldosDeLinhas (extrairLinhasFornecedor (str "acme 1234,56")
        (str "acme")) =
      [⟨str "234,56", (23456 : ℚ)/100, str "acme 1234,56"⟩] := by
  rw [show ((23456 : ℚ)/100) = mkRat 23456 100 by
    norm_num [Rat.mkRat_eq_div]]
  exact ⟨by decide, by decide⟩

/-- C4 counterexample: normalize is not idempotent: on the input a - b
the first pass leaves the three spaces produced by the punctuation
replacement, and a second pass collapses them. -/
theorem normalizarTexto_nao_idempotente :
    normalizarTexto (normalizarTexto (str "a - b")) ≠
      normalizarTexto (str "a - b") := by
  decide

/-- C5 counterexample: the claim fails for a vendor name whose
normalization is empty: the normalized vendor is then a substring of
every normalized document, yet vendorPresent answers false through its
empty-normalization guard. -/
theorem substring_sem_presenca :
    contemSub (normalizarTexto (str "x")) (normalizarTexto (str "!")) = true
      ∧ fornecedorExisteNaRazao (str "!") (str "x") = false := by
  exact ⟨by decide, by decide⟩

theorem fornecedor_substring_aux {nome texto : Texto}
    (hn : nome ≠ []) (ht : texto ≠ [])
    (ha : normalizarTexto nome ≠ [])
    (hsub : contemSub (normalizarTexto texto) (normalizarTexto nome)
      = true) :
    fornecedorExisteNaRazao nome texto = true := by
  have h1 : nome.isEmpty = false := isEmpty_false_of_ne hn
  have h2 : texto.isEmpty = false := isEmpty_false_of_ne ht
  have h3 : (normalizarTexto nome).isEmpty = false := isEmpty_false_of_ne ha
  simp [fornecedorExisteNaRazao, h1, h2, h3, hsub]

/-- C5 amended: for a non-empty vendor name and document whose
normalized vendor name is non-empty, vendorPresent answers true
whenever the normalized vendor name is a substring of the normalized
document (the fast path, before any per-line scoring). -/
theorem presenca_por_substring (nome texto : Texto)
    (hn : nome ≠ []) (ht : texto ≠ [])
    (ha : normalizarTexto nome ≠ [])
    (hsub : contemSub (normalizarTexto texto) (normalizarTexto nome)
      = true) :
    fornecedorExisteNaRazao nome texto = true :=
  fornecedor_substring_aux hn ht ha hsub

/-- Witness for the amended C5 at a concrete vendor and document. -/
theorem presenca_por_substring_instancia :
    fornecedorExisteNaRazao (str "Acme Ltda") (str "xx acme ltda yy")
      = true :=
  presenca_por_substring _ _ (by decide) (by decide) (by decide) (by decide)

/-- C8: every degenerate input degrades to a well-formed value: an
empty (or absent) vendor name or document makes vendorPresent false and
the extraction empty, and the aggregator on an empty source mapping
returns an empty indicator for each of the three sources with the
insufficient-data assessment; all core operations are total functions
of their inputs. -/
theorem entradas_degeneradas :
    (∀ t : Texto, fornecedorExisteNaRazao [] t = false) ∧
    (∀ n : Texto, fornecedorExisteNaRazao n [] = false) ∧
    (∀ n : Texto, extrairLinhasFornecedor [] n = []) ∧
    (∀ t : Texto, extrairLinhasFornecedor t [] = []) ∧
    (∀ f : Texto, montarIndicadoresFornecedor f [] =
      ⟨[(str "balancete", ⟨[], []⟩), (str "contas_pagar", ⟨[], []⟩),
        (str "razao", ⟨[], []⟩)], avaliacaoInsuficiente⟩) := by
  refine ⟨fun t => rfl, fun n => ?_, fun n => rfl, fun t => ?_, fun f => rfl⟩
  · cases n <;> rfl
  · cases t <;> rfl

/-- C6: every line match returned by the extraction carries a score of
at least 0.60, and every score lies in the unit interval, being the
number of found tokens over the total number of tokens. -/
theorem extrair_scores (texto nome : Texto) (lm : LineMatch)
    (hm : lm ∈ extrairLinhasFornecedor texto nome) :
    (3 : ℚ)/5 ≤ lm.scoreMatch ∧ 0 ≤ lm.scoreMatch ∧ lm.scoreMatch ≤ 1 := by
  unfold extrairLinhasFornecedor at hm
  dsimp only [] at hm
  split at hm
  · simp at hm
  · split at hm
    · simp at hm
    · split at hm
      · simp at hm
      · rename_i h1 h2 htok
        obtain ⟨ℓ, hℓ, hf⟩ := List.mem_filterMap.mp hm
        unfold linhaParaMatch at hf
        dsimp only [] at hf
        split at hf
        · exact absurd hf (by simp)
        · split at hf
          · rename_i hsc
            have hlm : lm = ⟨aparar ℓ, normalizarTexto ℓ,
                scoreTokens (tokensDe nome) (normalizarTexto ℓ),
                varreValores ℓ, (varreValores ℓ).getLast?⟩ := by
              injection hf with h
              exact h.symm
            have hk : 0 < ((tokensDe nome).length : ℚ) := by
              have : tokensDe nome ≠ [] := by
                intro hnil
                rw [hnil] at htok
                exact htok rfl
              have := List.length_pos.mpr this
              exact_mod_cast this
            have hck : (contagemTokens (tokensDe nome)
                (normalizarTexto ℓ) : ℚ) ≤ ((tokensDe nome).length : ℚ) := by
              exact_mod_cast List.length_filter_le _ _
            rw [show (mkRat 3 5 : ℚ) = 3/5 by
              norm_num [Rat.mkRat_eq_div]] at hsc
            rw [scoreTokens, qDiv_eq] at hsc
            subst hlm
            simp only [scoreTokens, qDiv_eq]
            refine ⟨hsc, ?_, ?_⟩
            · positivity
            · rw [div_le_one hk]
              exact hck
          · exact absurd hf (by simp)

/-- Witness for C6 at a concrete extraction. -/
theorem extrair_scores_instancia :
    (3 : ℚ)/5 ≤ (⟨str "acme 1,00", str "acme 1 00", 1, [str "1,00"],
        some (str "1,00")⟩ : LineMatch).scoreMatch ∧
      0 ≤ (⟨str "acme 1,00", str "acme 1 00", 1, [str "1,00"],
        some (str "1,00")⟩ : LineMatch).scoreMatch ∧
      (⟨str "acme 1,00", str "acme 1 00", 1, [str "1,00"],
        some (str "1,00")⟩ : LineMatch).scoreMatch ≤ 1 :=
  extrair_scores (str "acme 1,00") (str "acme") _ (by decide)


theorem fornecedor_eq_any {nome texto : Texto} (hte : texto ≠ [])
    (hnome : nome ≠ []) (hnorm : normalizarTexto nome ≠ [])
    (hfast : contemSub (normalizarTexto texto) (normalizarTexto nome)
      = false)
    (htoknil : tokensDe nome ≠ []) :
    fornecedorExisteNaRazao nome texto =
      (((quebrarLinhas texto).map normalizarTexto).filter
        (fun l => !l.isEmpty)).any
        (fun linha => mkRat 7 10 ≤ scoreTokens (tokensDe nome) linha) := by
  unfold fornecedorExisteNaRazao
  rw [isEmpty_false_of_ne hnome, isEmpty_false_of_ne hte]
  dsimp only []
  rw [hfast, isEmpty_false_of_ne hnorm, isEmpty_false_of_ne htoknil]
  simp

theorem mkRat_sete_decimos : (mkRat 7 10 : ℚ) = 7/10 := by
  norm_num [Rat.mkRat_eq_div]

theorem mkRat_tres_quintos : (mkRat 3 5 : ℚ) = 3/5 := by
  norm_num [Rat.mkRat_eq_div]

/-- C2: with a three-token vendor name, the presence threshold 0.70 and
the extraction threshold 0.60 are separated by the score 2/3: a
document whose every line holds at most two of the three tokens (and
which misses the whole name) is not vendor-present; a line holding
exactly two of them still yields a line match of score 2/3; and a line
holding all three makes the vendor present. -/
theorem limiares_distintos (nome texto t1 t2 t3 : Texto)
    (htok : tokensDe nome = [t1, t2, t3]) :
    (contemSub (normalizarTexto texto) (normalizarTexto nome) = false →
      (∀ ℓ ∈ quebrarLinhas texto,
        contagemTokens [t1, t2, t3] (normalizarTexto ℓ) ≤ 2) →
      fornecedorExisteNaRazao nome texto = false) ∧
    (∀ ℓ ∈ quebrarLinhas texto, texto ≠ [] →
      contagemTokens [t1, t2, t3] (normalizarTexto ℓ) = 2 →
      ∃ lm ∈ extrairLinhasFornecedor texto nome,
        lm.linhaNormalizada = normalizarTexto ℓ ∧
        lm.scoreMatch = 2/3) ∧
    (∀ ℓ ∈ quebrarLinhas texto, texto ≠ [] →
      contagemTokens [t1, t2, t3] (normalizarTexto ℓ) = 3 →
      fornecedorExisteNaRazao nome texto = true) := by
  have hnorm : normalizarTexto nome ≠ [] := by
    intro h
    rw [tokensDe_de_norm_vazia nome h] at htok
    exact absurd htok (by simp)
  have hnome : nome ≠ [] := by
    intro h
    subst h
    exact hnorm rfl
  have htoknil : tokensDe nome ≠ [] := by rw [htok]; simp
  have hlen3 : ∀ t ∈ [t1, t2, t3], 2 < t.length := by
    intro t ht
    refine @mem_tokensDe_comprimento nome t ?_
    rw [htok]
    exact ht
  refine ⟨?_, ?_, ?_⟩
  · intro hfast hall
    by_cases hte : texto = []
    · subst hte
      cases nome with
      | nil => exact absurd rfl hnome
      | cons a r => rfl
    · rw [fornecedor_eq_any hte hnome hnorm hfast htoknil]
      rw [List.any_eq_false]
      intro linha hlinha
      obtain ⟨ℓ, hℓ, rfl⟩ := List.mem_map.mp (List.mem_of_mem_filter hlinha)
      specialize hall ℓ hℓ
      simp only [decide_eq_true_eq]
      rw [htok, scoreTokens, qDiv_eq, mkRat_sete_decimos]
      intro hle
      have hc2 : (contagemTokens [t1, t2, t3] (normalizarTexto ℓ) : ℚ)
          ≤ 2 := by exact_mod_cast hall
      simp only [List.length_cons, List.length_nil] at hle
      push_cast at hle
      linarith
  · intro ℓ hℓ hte hc2
    have hnl : normalizarTexto ℓ ≠ [] := by
      apply contagem_pos_linha_nao_vazia hlen3
      rw [hc2]
      norm_num
    have hscore : scoreTokens (tokensDe nome) (normalizarTexto ℓ)
        = 2/3 := by
      rw [htok, scoreTokens, qDiv_eq, hc2]
      norm_num
    have hlp : linhaParaMatch (tokensDe nome) ℓ =
        some ⟨aparar ℓ, normalizarTexto ℓ, 2/3, varreValores ℓ,
          (varreValores ℓ).getLast?⟩ := by
      unfold linhaParaMatch
      dsimp only []
      rw [isEmpty_false_of_ne hnl]
      simp only [Bool.false_eq_true, if_false]
      rw [hscore, if_pos (by rw [mkRat_tres_quintos]; norm_num)]
    rw [extrair_eq_filterMap hte hnome htoknil]
    exact ⟨_, List.mem_filterMap.mpr ⟨ℓ, hℓ, hlp⟩, rfl, rfl⟩
  · intro ℓ hℓ hte hc3
    have hnl : normalizarTexto ℓ ≠ [] := by
      apply contagem_pos_linha_nao_vazia hlen3
      rw [hc3]
      norm_num
    cases hfast : contemSub (normalizarTexto texto) (normalizarTexto nome)
      with
    | true => exact fornecedor_substring_aux hnome hte hnorm hfast
    | false =>
      rw [fornecedor_eq_any hte hnome hnorm hfast htoknil]
      rw [List.any_eq_true]
      refine ⟨normalizarTexto ℓ, List.mem_filter.mpr
        ⟨List.mem_map.mpr ⟨ℓ, hℓ, rfl⟩, by
          simp [isEmpty_false_of_ne hnl]⟩, ?_⟩
      simp only [decide_eq_true_eq]
      rw [htok, scoreTokens, qDiv_eq, hc3, mkRat_sete_decimos]
      norm_num

/-- Witness for C2 on the vendor Comercial ABC Ltda: two tokens on a
line give no presence but an extracted match of score 2/3; all three
tokens give presence. -/
theorem limiares_distintos_instancia :
    fornecedorExisteNaRazao (str "Comercial ABC Ltda")
      (str "xx comercial abc yy 1,00") = false ∧
    (∃ lm ∈ extrairLinhasFornecedor (str "xx comercial abc yy 1,00")
        (str "Comercial ABC Ltda"),
      lm.linhaNormalizada =
        normalizarTexto (str "xx comercial abc yy 1,00") ∧
      lm.scoreMatch = 2/3) ∧
    fornecedorExisteNaRazao (str "Comercial ABC Ltda")
      (str "aa comercial abc ltda bb") = true := by
  have htok : tokensDe (str "Comercial ABC Ltda") =
      [str "comercial", str "abc", str "ltda"] := by decide
  exact ⟨(limiares_distintos _ _ _ _ _ htok).1 (by decide) (by decide),
    (limiares_distintos _ _ _ _ _ htok).2.1
      (str "xx comercial abc yy 1,00") (by decide) (by decide) (by decide),
    (limiares_distintos _ _ _ _ _ htok).2.2
      (str "aa comercial abc ltda bb") (by decide) (by decide) (by decide)⟩

theorem buscarTexto_ausente {textos : List (Texto × Texto)} {ch : Texto}
    (h : ∀ p ∈ textos, p.1 ≠ ch) : buscarTexto textos ch = [] := by
  induction textos with
  | nil => rfl
  | cons p resto ih =>
    unfold buscarTexto
    rw [if_neg (h p (List.mem_cons_self p resto))]
    exact ih fun q hq => h q (List.mem_cons_of_mem p hq)

theorem buscarTexto_cons_ne {textos : List (Texto × Texto)}
    {k v ch : Texto} (h : k ≠ ch) :
    buscarTexto ((k, v) :: textos) ch = buscarTexto textos ch := by
  show (if k = ch then v else buscarTexto textos ch) = buscarTexto textos ch
  rw [if_neg h]

/-- C7: the aggregator has exactly the three canonical source keys, in
order; a key absent from the input behaves as empty text and yields the
empty indicator; and an entry under any non-canonical key has no effect
on the result. -/
theorem montar_chaves_fixas (f : Texto) (textos : List (Texto × Texto)) :
    (montarIndicadoresFornecedor f textos).indicadoresFornecedor.map
      Prod.fst = chavesRelatorios ∧
    (∀ ch ∈ chavesRelatorios, (∀ p ∈ textos, p.1 ≠ ch) →
      (ch, (⟨[], []⟩ : IndicadorRelatorio)) ∈
        (montarIndicadoresFornecedor f textos).indicadoresFornecedor) ∧
    (∀ k v : Texto, k ∉ chavesRelatorios →
      montarIndicadoresFornecedor f ((k, v) :: textos) =
        montarIndicadoresFornecedor f textos) := by
  refine ⟨rfl, ?_, ?_⟩
  · intro ch hch hab
    refine List.mem_map.mpr ⟨ch, hch, ?_⟩
    rw [buscarTexto_ausente hab]
    rfl
  · intro k v hk
    have hpc : montarPorChave f ((k, v) :: textos) =
        montarPorChave f textos := by
      unfold montarPorChave
      apply List.map_congr_left
      intro ch hch
      rw [buscarTexto_cons_ne (fun he => hk (by rw [he]; exact hch))]
    unfold montarIndicadoresFornecedor
    rw [hpc]

/-- Witness for C7: an input holding only an unknown key has the three
canonical keys in its output, an empty balancete indicator, and equals
the output on the empty mapping. -/
theorem montar_chaves_fixas_instancia :
    (montarIndicadoresFornecedor (str "acme")
      [(str "outra", str "x 1,00")]).indicadoresFornecedor.map Prod.fst =
      chavesRelatorios ∧
    (str "balancete", (⟨[], []⟩ : IndicadorRelatorio)) ∈
      (montarIndicadoresFornecedor (str "acme")
        [(str "outra", str "x 1,00")]).indicadoresFornecedor ∧
    montarIndicadoresFornecedor (str "acme")
        ((str "outra", str "x 1,00") :: []) =
      montarIndicadoresFornecedor (str "acme") [] := by
  have h := montar_chaves_fixas (str "acme") [(str "outra", str "x 1,00")]
  have h2 := montar_chaves_fixas (str "acme") []
  exact ⟨h.1, h.2.1 (str "balancete") (by decide) (by decide),
    h2.2.2 (str "outra") (str "x 1,00") (by decide)⟩

theorem foldl_max_mono {a b : ℚ} (vs : List ℚ) (h : a ≤ b) :
    vs.foldl max a ≤ vs.foldl max b := by
  induction vs generalizing a b with
  | nil => exact h
  | cons w vs ih => exact ih (max_le_max h (le_refl w))

theorem foldl_min_le_foldl_max (v : ℚ) (vs : List ℚ) :
    vs.foldl min v ≤ vs.foldl max v := by
  induction vs generalizing v with
  | nil => exact le_refl v
  | cons w vs ih =>
    exact le_trans (ih (min v w)) (foldl_max_mono vs min_le_max)

theorem avaliarSaldos_caracterizacao
    (L : List (Texto × IndicadorRelatorio)) (vals : List ℚ)
    (hvals : vals = ((L.filter fun p => !p.2.saldosEncontrados.isEmpty).map
      fun p => p.2.saldosEncontrados.map fun s => s.numero).flatten) :
    ((L.filter fun p => !p.2.saldosEncontrados.isEmpty).length < 2 →
      avaliarSaldos L = avaliacaoInsuficiente) ∧
    (∀ mn mx : ℚ,
      2 ≤ (L.filter fun p => !p.2.saldosEncontrados.isEmpty).length →
      vals.min? = some mn → vals.max? = some mx →
      (mx - mn ≤ 1/10 →
        (avaliarSaldos L).status = .saldos_iguais ∧
        (avaliarSaldos L).valorReferenciaAproximado =
          some ((round (((mn + mx)/2) * 100) : ℤ) / 100 : ℚ)) ∧
      (1/10 < mx - mn →
        (avaliarSaldos L).status = .saldos_diferentes ∧
        (avaliarSaldos L).valorReferenciaAproximado = none)) := by
  constructor
  · intro hlt
    unfold avaliarSaldos
    rw [if_neg (by omega)]
  · intro mn mx hge hmin hmax
    subst hvals
    unfold avaliarSaldos
    dsimp only []
    rw [if_pos hge]
    cases hv : ((L.filter fun p => !p.2.saldosEncontrados.isEmpty).map
        fun p => p.2.saldosEncontrados.map fun s => s.numero).flatten with
    | nil =>
      rw [hv] at hmin
      simp [List.min?] at hmin
    | cons v vs =>
      rw [hv] at hmin hmax
      dsimp only []
      simp only [List.min?] at hmin
      simp only [List.max?] at hmax
      injection hmin with hmn
      injection hmax with hmx
      have hmnmx : mn ≤ mx := by
        rw [← hmn, ← hmx]
        exact foldl_min_le_foldl_max v vs
      have habs : qAbs (qSub (vs.foldl max v) (vs.foldl min v)) = mx - mn := by
        rw [qAbs_eq, qSub_eq, hmn, hmx, abs_of_nonneg (by linarith)]
      have htol : (mkRat 1 10 : ℚ) = 1/10 := by
        norm_num [Rat.mkRat_eq_div]
      have harr : arredonda2 (qDiv (qAdd (vs.foldl min v)
          (vs.foldl max v)) 2) =
          ((round (((mn + mx)/2) * 100) : ℤ) / 100 : ℚ) := by
        rw [arredonda2, qDiv_eq, qAdd_eq, qMul_eq, qRound_eq, hmn, hmx,
          Rat.divInt_eq_div]
        norm_num
      constructor
      · intro hle
        rw [if_pos (by rw [habs, htol]; exact hle)]
        exact ⟨rfl, by rw [← harr]⟩
      · intro hgt
        rw [if_neg (by rw [habs, htol]; exact not_le.mpr hgt)]
        exact ⟨rfl, rfl⟩

/-- C1: the verdict of the aggregator: with balances from fewer than
two sources the assessment is insufficient-data; otherwise, pooling
every parsed balance of the sources that have one, a spread of at most
0.10 between pooled minimum and maximum gives the balances-equal status
with reference value round-to-two-decimals of their midpoint, and a
larger spread gives the balances-different status with no reference
value. -/
theorem montar_avaliacao (f : Texto) (textos : List (Texto × Texto))
    (vals : List ℚ)
    (hvals : vals = (((montarIndicadoresFornecedor f
        textos).indicadoresFornecedor.filter
      fun p => !p.2.saldosEncontrados.isEmpty).map
      fun p => p.2.saldosEncontrados.map fun s => s.numero).flatten) :
    (((montarIndicadoresFornecedor f textos).indicadoresFornecedor.filter
        fun p => !p.2.saldosEncontrados.isEmpty).length < 2 →
      (montarIndicadoresFornecedor f
        textos).avaliacaoAutomaticaSaldo.status = .dados_insuficientes) ∧
    (∀ mn mx : ℚ,
      2 ≤ ((montarIndicadoresFornecedor f
        textos).indicadoresFornecedor.filter
        fun p => !p.2.saldosEncontrados.isEmpty).length →
      vals.min? = some mn → vals.max? = some mx →
      (mx - mn ≤ 1/10 →
        (montarIndicadoresFornecedor f
          textos).avaliacaoAutomaticaSaldo.status = .saldos_iguais ∧
        (montarIndicadoresFornecedor f
          textos).avaliacaoAutomaticaSaldo.valorReferenciaAproximado =
          some ((round (((mn + mx)/2) * 100) : ℤ) / 100 : ℚ)) ∧
      (1/10 < mx - mn →
        (montarIndicadoresFornecedor f
          textos).avaliacaoAutomaticaSaldo.status = .saldos_diferentes ∧
        (montarIndicadoresFornecedor f
          textos).avaliacaoAutomaticaSaldo.valorReferenciaAproximado =
          none)) := by
  have h := avaliarSaldos_caracterizacao (montarPorChave f textos) vals hvals
  refine ⟨fun hlt => ?_, h.2⟩
  rw [show (montarIndicadoresFornecedor f
      textos).avaliacaoAutomaticaSaldo =
    avaliarSaldos (montarPorChave f textos) from rfl, h.1 hlt]
  rfl

/-- Witness for C1: one source with a balance gives insufficient data;
balances 1.00 and 1.05 in two sources give the balances-equal status
with the rounded midpoint as reference. -/
theorem montar_avaliacao_instancia :
    (montarIndicadoresFornecedor (str "acme")
      [(str "balancete", str "acme 1,00")]).avaliacaoAutomaticaSaldo.status
      = .dados_insuficientes ∧
    (montarIndicadoresFornecedor (str "acme")
      [(str "balancete", str "acme 1,00"), (str "razao", str "acme 1,05")]
      ).avaliacaoAutomaticaSaldo.status = .saldos_iguais ∧
    (montarIndicadoresFornecedor (str "acme")
      [(str "balancete", str "acme 1,00"), (str "razao", str "acme 1,05")]
      ).avaliacaoAutomaticaSaldo.valorReferenciaAproximado =
      some ((round (((1 + mkRat 21 20)/2) * 100) : ℤ) / 100 : ℚ) := by
  have h2 := (montar_avaliacao (str "acme")
    [(str "balancete", str "acme 1,00"), (str "razao", str "acme 1,05")]
    _ rfl).2 1 (mkRat 21 20) (by decide) (by decide) (by decide)
  have h3 := h2.1 (by norm_num [Rat.mkRat_eq_div])
  exact ⟨(montar_avaliacao (str "acme")
    [(str "balancete", str "acme 1,00")] _ rfl).1 (by decide),
    h3.1, h3.2⟩

/-!
Infrastructure for the stability of normalization under repetition.
The normalized alphabet is lowercase word characters and the space;
one further pass only collapses the space runs that the punctuation
replacement may have created, after which normalization is a fixed
point.
-/

/-- A character of the normalized alphabet: lowercase ASCII letter,
digit, underscore or space. -/
def bomChar (c : Char) : Bool :=
  decide ((97 ≤ c.toNat ∧ c.toNat ≤ 122) ∨ (48 ≤ c.toNat ∧ c.toNat ≤ 57) ∨
    c.toNat = 95 ∨ c.toNat = 32)

theorem char_eq_of_toNat {c d : Char} (h : c.toNat = d.toNat) : c = d :=
  Char.eq_of_val_eq (UInt32.ext h)

theorem char_ofNat_toNat {m : ℕ} (h1 : 97 ≤ m) (h2 : m ≤ 122) :
    (Char.ofNat m).toNat = m := by
  have hv : m.isValidChar := Or.inl (by omega)
  rw [Char.ofNat, dif_pos hv]
  simp [Char.toNat, UInt32.toNat, Char.ofNatAux]

theorem colapsaAux_mem {p : Char → Bool} {l : Texto} {b : Bool} {c : Char}
    (h : c ∈ colapsaAux p l b) : (c ∈ l ∧ p c = false) ∨ c = ' ' := by
  induction l generalizing b with
  | nil => simp [colapsaAux] at h
  | cons a resto ih =>
    unfold colapsaAux at h
    by_cases hp : p a = true
    · rw [if_pos hp] at h
      cases b with
      | true =>
        rcases ih h with ⟨hm, hnp⟩ | hsp
        · exact Or.inl ⟨List.mem_cons_of_mem a hm, hnp⟩
        · exact Or.inr hsp
      | false =>
        rcases List.mem_cons.mp h with rfl | h2
        · exact Or.inr rfl
        · rcases ih h2 with ⟨hm, hnp⟩ | hsp
          · exact Or.inl ⟨List.mem_cons_of_mem a hm, hnp⟩
          · exact Or.inr hsp
    · rw [if_neg hp] at h
      rcases List.mem_cons.mp h with rfl | h2
      · exact Or.inl ⟨List.mem_cons_self c resto,
          Bool.not_eq_true _ ▸ (by simpa using hp)⟩
      · rcases ih h2 with ⟨hm, hnp⟩ | hsp
        · exact Or.inl ⟨List.mem_cons_of_mem a hm, hnp⟩
        · exact Or.inr hsp

theorem trocaPontuacao_mem {l : Texto} {c : Char}
    (h : c ∈ trocaPontuacao l) :
    (c ∈ l ∧ (letraJS c || espacoJS c) = true) ∨ c = ' ' := by
  unfold trocaPontuacao at h
  obtain ⟨d, hd, hc⟩ := List.mem_map.mp h
  by_cases hcond : (letraJS d || espacoJS d) = true
  · rw [if_pos hcond] at hc
    subst hc
    exact Or.inl ⟨hd, hcond⟩
  · rw [if_neg hcond] at hc
    exact Or.inr hc.symm

theorem tiraFim_mem {p : Char → Bool} {l : Texto} {c : Char}
    (h : c ∈ tiraFim p l) : c ∈ l := by
  induction l with
  | nil => simp [tiraFim] at h
  | cons a resto ih =>
    unfold tiraFim at h
    dsimp only [] at h
    split at h
    · split at h
      · simp at h
      · rcases List.mem_cons.mp h with rfl | h2
        · exact List.mem_cons_self c resto
        · simp at h2
    · rcases List.mem_cons.mp h with rfl | h2
      · exact List.mem_cons_self c resto
      · exact List.mem_cons_of_mem a (ih h2)

theorem dropWhile_mem {p : Char → Bool} {l : Texto} {c : Char}
    (h : c ∈ l.dropWhile p) : c ∈ l := by
  induction l with
  | nil => simp at h
  | cons a resto ih =>
    rw [List.dropWhile_cons] at h
    split at h
    · exact List.mem_cons_of_mem a (ih h)
    · exact h

theorem aparar_mem {l : Texto} {c : Char} (h : c ∈ aparar l) : c ∈ l :=
  dropWhile_mem (tiraFim_mem h)

theorem minuscula_boa {c : Char} (h : (letraJS c || espacoJS c) = true)
    (hsp : espacoJS c = true → c = ' ') :
    bomChar (minusculaChar c) = true := by
  unfold minusculaChar
  split
  · rename_i hup
    rw [bomChar, decide_eq_true_iff]
    left
    constructor
    · rw [char_ofNat_toNat (by omega) (by omega)]
      omega
    · rw [char_ofNat_toNat (by omega) (by omega)]
      omega
  · rename_i hup
    rcases Bool.or_eq_true _ _ |>.mp h with hl | hs
    · rw [letraJS, decide_eq_true_iff] at hl
      rw [bomChar, decide_eq_true_iff]
      omega
    · have := hsp hs
      subst this
      decide

theorem bom_letra_ou_espaco {c : Char} (h : bomChar c = true) :
    (letraJS c || espacoJS c) = true := by
  rw [bomChar, decide_eq_true_iff] at h
  rw [Bool.or_eq_true, letraJS, espacoJS, decide_eq_true_iff,
    decide_eq_true_iff]
  omega

theorem bom_espaco_eq {c : Char} (h : bomChar c = true)
    (hs : espacoJS c = true) : c = ' ' := by
  rw [bomChar, decide_eq_true_iff] at h
  rw [espacoJS, decide_eq_true_iff] at hs
  exact char_eq_of_toNat (by
    rw [show (' ').toNat = 32 from rfl]
    omega)

theorem minuscula_id_boa {c : Char} (h : bomChar c = true) :
    minusculaChar c = c := by
  rw [bomChar, decide_eq_true_iff] at h
  unfold minusculaChar
  rw [if_neg (by omega)]

/-- Every character of a normalized text is in the normalized
alphabet. -/
theorem normalizarTexto_boa (s : Texto) :
    ∀ c ∈ normalizarTexto s, bomChar c = true := by
  intro c hc
  unfold normalizarTexto at hc
  split at hc
  · simp at hc
  · unfold minusculas at hc
    obtain ⟨d, hd, hcd⟩ := List.mem_map.mp hc
    have hd2 := aparar_mem hd
    subst hcd
    rcases trocaPontuacao_mem hd2 with ⟨hd3, hcond⟩ | rfl
    · refine minuscula_boa hcond fun hspd => ?_
      rcases colapsaAux_mem hd3 with ⟨_, hnsp⟩ | rfl
      · rw [hspd] at hnsp
        exact absurd hnsp (by simp)
      · rfl
    · exact minuscula_boa (by decide) fun _ => rfl

theorem nfdLista_id {l : Texto} (h : ∀ c ∈ l, c.toNat < 128) :
    nfdLista l = l := by
  induction l with
  | nil => rfl
  | cons a resto ih =>
    unfold nfdLista
    rw [nfdChar, if_pos (h a (List.mem_cons_self a resto)),
      ih fun c hc => h c (List.mem_cons_of_mem a hc)]
    rfl

theorem colapsaAux_id {p : Char → Bool} {l : Texto}
    (h : ∀ c ∈ l, p c = false) : ∀ b, colapsaAux p l b = l := by
  induction l with
  | nil => intro b; rfl
  | cons a resto ih =>
    intro b
    unfold colapsaAux
    rw [if_neg (by rw [h a (List.mem_cons_self a resto)]; simp)]
    rw [ih fun c hc => h c (List.mem_cons_of_mem a hc)]

theorem map_id_em {f : Char → Char} {l : Texto}
    (h : ∀ c ∈ l, f c = c) : l.map f = l := by
  rw [show l.map f = l.map id from List.map_congr_left h, List.map_id]

/-- On text over the normalized alphabet, normalization only collapses
space runs and trims. -/
theorem normalizar_boa_eq {y : Texto} (hg : ∀ c ∈ y, bomChar c = true) :
    normalizarTexto y = aparar (colapsa espacoJS y) := by
  cases y with
  | nil => rfl
  | cons a resto =>
    unfold normalizarTexto
    rw [if_neg (by simp)]
    have hascii : ∀ c ∈ a :: resto, c.toNat < 128 := by
      intro c hc
      have := hg c hc
      rw [bomChar, decide_eq_true_iff] at this
      omega
    rw [nfdLista_id hascii]
    rw [List.filter_eq_self.mpr (by
      intro c hc
      have := hg c hc
      rw [bomChar, decide_eq_true_iff] at this
      rw [marcaCombinante]
      simp only [Bool.not_eq_true', decide_eq_false_iff_not]
      omega)]
    rw [show colapsa quebraJS (a :: resto) = a :: resto from
      colapsaAux_id (by
        intro c hc
        have := hg c hc
        rw [bomChar, decide_eq_true_iff] at this
        rw [quebraJS]
        simp only [decide_eq_false_iff_not]
        omega) false]
    have hcolmem : ∀ c ∈ colapsa espacoJS (a :: resto), bomChar c = true := by
      intro c hc
      rcases colapsaAux_mem hc with ⟨hm, _⟩ | rfl
      · exact hg c hm
      · decide
    rw [show trocaPontuacao (colapsa espacoJS (a :: resto)) =
        colapsa espacoJS (a :: resto) from map_id_em (by
      intro c hc
      rw [if_pos (bom_letra_ou_espaco (hcolmem c hc))])]
    exact map_id_em fun c hc =>
      minuscula_id_boa (hcolmem c (aparar_mem hc))

/-- No two adjacent characters both satisfy p. -/
def semDuplo (p : Char → Bool) : Texto → Bool
  | [] => true
  | [_] => true
  | a :: b :: t => (!(p a && p b)) && semDuplo p (b :: t)

/-- The head, when present, does not satisfy p. -/
def cabecaNaoP (p : Char → Bool) : Texto → Prop
  | [] => True
  | c :: _ => p c = false

theorem semDuplo_cons {p : Char → Bool} {c : Char} {r : Texto}
    (h : cabecaNaoP p r ∨ p c = false) (hr : semDuplo p r = true) :
    semDuplo p (c :: r) = true := by
  cases r with
  | nil => rfl
  | cons d t =>
    show ((!(p c && p d)) && semDuplo p (d :: t)) = true
    rw [Bool.and_eq_true]
    refine ⟨?_, hr⟩
    rcases h with hcab | hpc
    · have : p d = false := hcab
      rw [this]
      simp
    · rw [hpc]
      simp

theorem semDuplo_tail {p : Char → Bool} {a : Char} {t : Texto}
    (h : semDuplo p (a :: t) = true) : semDuplo p t = true := by
  cases t with
  | nil => rfl
  | cons d t' =>
    have : ((!(p a && p d)) && semDuplo p (d :: t')) = true := h
    exact (Bool.and_eq_true _ _ |>.mp this).2

theorem colapsaAux_true_cabeca (p : Char → Bool) (l : Texto) :
    cabecaNaoP p (colapsaAux p l true) := by
  induction l with
  | nil => trivial
  | cons a resto ih =>
    unfold colapsaAux
    by_cases hp : p a = true
    · rw [if_pos hp, if_pos rfl]
      exact ih
    · rw [if_neg hp]
      exact eq_false_of_ne_true hp

theorem semDuplo_colapsaAux (p : Char → Bool) (l : Texto) :
    ∀ b, semDuplo p (colapsaAux p l b) = true := by
  induction l with
  | nil => intro b; rfl
  | cons a resto ih =>
    intro b
    unfold colapsaAux
    by_cases hp : p a = true
    · rw [if_pos hp]
      cases b with
      | true =>
        rw [if_pos rfl]
        exact ih true
      | false =>
        rw [if_neg (by simp)]
        exact semDuplo_cons (Or.inl (colapsaAux_true_cabeca p resto))
          (ih true)
    · rw [if_neg hp]
      exact semDuplo_cons (Or.inr (eq_false_of_ne_true hp)) (ih false)

theorem colapsaAux_fix {p : Char → Bool} :
    ∀ l : Texto, semDuplo p l = true → (∀ c ∈ l, p c = true → c = ' ') →
      colapsaAux p l false = l ∧
        (cabecaNaoP p l → colapsaAux p l true = l) := by
  intro l
  induction l with
  | nil => exact fun _ _ => ⟨rfl, fun _ => rfl⟩
  | cons a resto ih =>
    intro hsd hch
    have IH := ih (semDuplo_tail hsd)
      fun c hc => hch c (List.mem_cons_of_mem a hc)
    constructor
    · unfold colapsaAux
      by_cases hp : p a = true
      · rw [if_pos hp, if_neg (by simp)]
        have hcab : cabecaNaoP p resto := by
          cases resto with
          | nil => trivial
          | cons d t =>
            have h2 : ((!(p a && p d)) && semDuplo p (d :: t)) = true := hsd
            have h3 := (Bool.and_eq_true _ _ |>.mp h2).1
            rw [Bool.not_eq_true', Bool.and_eq_false_iff] at h3
            rcases h3 with h3 | h3
            · exact absurd hp (by rw [h3]; simp)
            · exact h3
        rw [IH.2 hcab, hch a (List.mem_cons_self a resto) hp]
      · rw [if_neg hp, IH.1]
    · intro hcabl
      have hpa : p a = false := hcabl
      unfold colapsaAux
      rw [if_neg (by rw [hpa]; simp), IH.1]

theorem tiraFim_cabeca (p : Char → Bool) (a : Char) (t : Texto) :
    tiraFim p (a :: t) = [] ∨ ∃ r, tiraFim p (a :: t) = a :: r := by
  unfold tiraFim
  dsimp only []
  split
  · split
    · exact Or.inl rfl
    · exact Or.inr ⟨[], rfl⟩
  · exact Or.inr ⟨tiraFim p t, rfl⟩

theorem semDuplo_dropWhile {p q : Char → Bool} {l : Texto}
    (h : semDuplo p l = true) : semDuplo p (l.dropWhile q) = true := by
  induction l with
  | nil => rfl
  | cons a t ih =>
    rw [List.dropWhile_cons]
    split
    · exact ih (semDuplo_tail h)
    · exact h

theorem semDuplo_tiraFim {p q : Char → Bool} {l : Texto}
    (h : semDuplo p l = true) : semDuplo p (tiraFim q l) = true := by
  induction l with
  | nil => rfl
  | cons a t ih =>
    unfold tiraFim
    dsimp only []
    split
    · split
      · rfl
      · rfl
    · rename_i hne
      cases t with
      | nil => simp [tiraFim] at hne
      | cons d t' =>
        rcases tiraFim_cabeca q d t' with h0 | ⟨r', hr⟩
        · rw [h0] at hne
          simp at hne
        · rw [hr]
          have hsd' := ih (semDuplo_tail h)
          rw [hr] at hsd'
          show ((!(p a && p d)) && semDuplo p (d :: r')) = true
          rw [Bool.and_eq_true]
          refine ⟨?_, hsd'⟩
          have h2 : ((!(p a && p d)) && semDuplo p (d :: t')) = true := h
          exact (Bool.and_eq_true _ _ |>.mp h2).1

theorem dropWhile_cabeca (p : Char → Bool) (l : Texto) :
    cabecaNaoP p (l.dropWhile p) := by
  induction l with
  | nil => trivial
  | cons a t ih =>
    rw [List.dropWhile_cons]
    split
    · exact ih
    · rename_i hp
      exact eq_false_of_ne_true hp

theorem dropWhile_id_cabeca {p : Char → Bool} {l : Texto}
    (h : cabecaNaoP p l) : l.dropWhile p = l := by
  cases l with
  | nil => rfl
  | cons a t =>
    rw [List.dropWhile_cons]
    have hpa : p a = false := h
    rw [hpa]
    simp

theorem tiraFim_preserva_cabeca {p q : Char → Bool} {l : Texto}
    (h : cabecaNaoP p l) : cabecaNaoP p (tiraFim q l) := by
  cases l with
  | nil => trivial
  | cons a t =>
    rcases tiraFim_cabeca q a t with h0 | ⟨r, hr⟩
    · rw [h0]
      trivial
    · rw [hr]
      exact h

theorem tiraFim_idem (p : Char → Bool) (l : Texto) :
    tiraFim p (tiraFim p l) = tiraFim p l := by
  induction l with
  | nil => rfl
  | cons a t ih =>
    rw [show tiraFim p (a :: t) =
      (if (tiraFim p t).isEmpty then (if p a then [] else [a])
        else a :: tiraFim p t) from rfl]
    split
    · split
      · rfl
      · rename_i hpa
        simp [tiraFim, hpa]
    · rename_i hne
      rw [show tiraFim p (a :: tiraFim p t) =
        (if (tiraFim p (tiraFim p t)).isEmpty then (if p a then [] else [a])
          else a :: tiraFim p (tiraFim p t)) from rfl]
      rw [ih, if_neg hne]

theorem aparar_idem (l : Texto) : aparar (aparar l) = aparar l := by
  unfold aparar
  rw [dropWhile_id_cabeca (tiraFim_preserva_cabeca
    (dropWhile_cabeca espacoJS l))]
  exact tiraFim_idem espacoJS (l.dropWhile espacoJS)

/-- C4 amended: normalization stabilizes after two passes: a third
application changes nothing.  (A single pass need not be a fixed point,
as the counterexample records: punctuation replaced by spaces after
whitespace collapsing can leave runs of spaces, which only the next
pass collapses.) -/
theorem normalizarTexto_dupla_estavel (x : Texto) :
    normalizarTexto (normalizarTexto (normalizarTexto x)) =
      normalizarTexto (normalizarTexto x) := by
  have hgy := normalizarTexto_boa x
  have hgz := normalizarTexto_boa (normalizarTexto x)
  have hK1 := normalizar_boa_eq hgy
  have hK2 := normalizar_boa_eq hgz
  rw [hK2]
  have hsd : semDuplo espacoJS
      (normalizarTexto (normalizarTexto x)) = true := by
    rw [hK1]
    exact semDuplo_tiraFim (semDuplo_dropWhile
      (semDuplo_colapsaAux espacoJS (normalizarTexto x) false))
  have hsp : ∀ c ∈ normalizarTexto (normalizarTexto x),
      espacoJS c = true → c = ' ' :=
    fun c hc hs => bom_espaco_eq (hgz c hc) hs
  rw [show colapsa espacoJS (normalizarTexto (normalizarTexto x)) =
    normalizarTexto (normalizarTexto x) from
    (colapsaAux_fix _ hsd hsp).1]
  rw [hK1]
  exact aparar_idem _
